import Mathlib

/-!
Verification development for the repository
`StefanFrederiksen/CompressingStringCollections`.

The development shallowly embeds the Rust sources:
  * `src/relative_lempel_ziv/src/lib.rs` (encoding, decoding, random access,
    reference-string construction, reference-merge strategy),
  * `src/relative_lempel_ziv/src/analysis.rs` (per-input analyses used by the
    reference-merge strategy),
  * `src/suffix_tree/src/lib.rs` and `src/suffix_tree/src/types/label_data.rs`
    (the label alphabet and the Ukkonen suffix-tree builder).

Bytes are modelled as `Nat` (the Rust code only compares bytes and never
performs byte arithmetic, so no wrap-around modelling is needed).  Rust
functions that can panic are modelled as `Option`-valued functions where
`none` stands for the panic.
-/

/-! ### Longest-substring query

The live `src/suffix_tree/src/lib.rs` contains `find_longest_substring` only
as a commented-out draft, yet `encode_parts` in
`src/relative_lempel_ziv/src/lib.rs` calls `suffix_tree.longest_substring`
and unwraps an `Option<(usize, usize)>`.  The function is therefore modelled
from the spec (§4.4). -/
/-- Boolean test that `p` is a prefix of `l` (element-wise comparison). -/
def startsWith : List Nat → List Nat → Bool
  | [], _ => true
  | _ :: _, [] => false
  | p :: ps, x :: xs => p == x && startsWith ps xs

/-- First index at which `p` occurs as a contiguous sublist of the second
argument, if any. -/
def findSub (p : List Nat) : List Nat → Option Nat
  | [] => if startsWith p [] then some 0 else none
  | x :: l => if startsWith p (x :: l) then some 0 else (findSub p l).map (· + 1)

/-- Whether `p` occurs as a contiguous substring of `R`. -/
def occursIn (R p : List Nat) : Bool := (findSub p R).isSome

/-- Largest `j ≤ k` such that the first `j` bytes of `b` occur in `R`
(`0` if none with `j ≥ 1` does). -/
def bestLenAux (R b : List Nat) : Nat → Nat
  | 0 => 0
  | k + 1 => if occursIn R (b.take (k + 1)) then k + 1 else bestLenAux R b k

/-- Length of the longest prefix of `b` that occurs as a substring of `R`. -/
def bestLen (R b : List Nat) : Nat := bestLenAux R b b.length

/-- Modelled from the spec: `find_longest_substring` (the longest-substring
query of §4.4) exists in `src/suffix_tree/src/lib.rs` only as commented-out
code, while `encode_parts` calls it through `SuffixTree::longest_substring`.
Per §4.4 it returns `Some (start, end)` with `R[start..end]` equal to the
longest prefix of `b` occurring anywhere in `R`, and `None` if `b`'s first
byte is absent from `R`. -/
def longest_substring (R b : List Nat) : Option (Nat × Nat) :=
  let k := bestLen R b
  if k = 0 then none
  else (findSub (b.take k) R).map (fun s => (s, s + k))

/-! ### The RLZ archive: data model, encoder, decoder
from `src/relative_lempel_ziv/src/lib.rs`. -/
/-- Rust `EncodePart<U>`: one factor, with the cumulative offset `len` and the
half-open range `(start, end)` into the base string (lines 19-28). -/
structure EncodePart where
  len : Nat
  range : Nat × Nat
  deriving Repr, DecidableEq

/-- Rust `EncodedString<U> = Vec<EncodePart<U>>` (line 30). -/
abbrev EncodedString := List EncodePart

/-- Rust `RelativeLempelZiv<U>` (lines 32-36). -/
structure RelativeLempelZiv where
  base_data : List Nat
  data : List EncodedString
  deriving Repr, DecidableEq

/-- Option-valued map in input order.  Models both the plain loops pushing
one result per input and the `rayon` loop of `encode_parts`, which writes
each worker's result at its input's index (so the output order equals the
input order); `none` models a panic in any iteration. -/
def mapOption (f : α → Option β) : List α → Option (List β)
  | [] => some []
  | a :: l =>
    match f a with
    | none => none
    | some b =>
      match mapOption f l with
      | none => none
      | some bs => some (b :: bs)

/-- The bytes of `"ACGTN"`, the suffix hardcoded into the base string. -/
def ACGTN : List Nat := [65, 67, 71, 84, 78]

/-- Rust `base_string` (lines 244-283): concatenate the inputs selected by the
indices `n` (default `[0]`), then append `"ACGTN"`.  `strings[x]` is a
panicking index, modelled via `Option`.  Everything below `return s;` in the
source (the generic alphabet-completion scan) is unreachable code and hence
not part of this function's behaviour. -/
def base_string (strings : List (List Nat)) (n : Option (List Nat)) : Option (List Nat) :=
  (mapOption (fun x => strings[x]?) (n.getD [0])).map fun parts => parts.flatten ++ ACGTN

/-- The factorization loop of `encode_parts` (lines 355-381) for one input:
while `index < |S|`, query `longest_substring` on the remaining suffix
(carried directly as the list argument), record the factor
`{len, (start, end)}` and advance `index` and `len` by `end - start`.
`none` models the `expect("Reference string did not contain substring")`
panic.  The fuel argument only bounds the number of iterations: each factor
has positive length, so fuel `|S|` always suffices
(`encode_parts_go_fuel_irrelevant`). -/
def encode_parts_go (R : List Nat) : Nat → List Nat → Nat → Option EncodedString
  | _, [], _ => some []
  | 0, _ :: _, _ => none
  | fuel + 1, x :: s, len =>
    match longest_substring R (x :: s) with
    | none => none
    | some (st, en) =>
      match encode_parts_go R fuel ((x :: s).drop (en - st)) (len + (en - st)) with
      | none => none
      | some rest => some ({ len := len, range := (st, en) } :: rest)

/-- Rust `encode_parts` (lines 335-390): factorize every input against the suffix
tree of `R`; the tree is consulted only through `longest_substring`, and
`base_data` is set to `suffix_tree.string()`, i.e. `R` itself. -/
def encode_parts (strings : List (List Nat)) (R : List Nat) : Option RelativeLempelZiv :=
  (mapOption (fun s => encode_parts_go R s.length s 0) strings).map
    fun data => { base_data := R, data := data }

/-- Rust `RelativeLempelZiv::encode` (fixed-indices strategy, lines 100-117):
build the base string, create its suffix tree, and factorize every input. -/
def encode (strings : List (List Nat)) (n : Option (List Nat)) : Option RelativeLempelZiv :=
  match base_string strings n with
  | none => none
  | some R => encode_parts strings R

/-- The Rust slice `base[st..en]`, with its bounds-panic condition. -/
def sliceRange (base : List Nat) (st en : Nat) : Option (List Nat) :=
  if st ≤ en ∧ en ≤ base.length then some ((base.drop st).take (en - st)) else none

/-- Rust `internal_decode` (lines 392-415): concatenate `base_data[start..end]`
over each sequence's factors in order.  The model works at byte level; the
final `String::from_utf8` of the source is the identity on the bytes. -/
def internal_decode (rlz : RelativeLempelZiv) : Option (List (List Nat)) :=
  mapOption
    (fun es =>
      (mapOption (fun part => sliceRange rlz.base_data part.range.1 part.range.2) es).map
        List.flatten)
    rlz.data

/-- Invariant of a factor list produced by the factorization loop, starting
at cumulative offset `c` into the original input `S`: each factor's `len`
field is the running cumulative offset, its range is a nonempty in-bounds
slice of `R` matching the corresponding bytes of `S`, and the offsets end
exactly at `|S|`. -/
def seqInv (R S : List Nat) : Nat → EncodedString → Prop
  | c, [] => c = S.length
  | c, f :: rest =>
      f.len = c ∧ f.range.1 < f.range.2 ∧ f.range.2 ≤ R.length ∧
      f.range.2 - f.range.1 ≤ S.length - c ∧
      (R.drop f.range.1).take (f.range.2 - f.range.1) =
        (S.drop c).take (f.range.2 - f.range.1) ∧
      seqInv R S (c + (f.range.2 - f.range.1)) rest

/-! ### Random access (`internal_random_access`, lines 457-488) -/
/-- Result of the Rust call
`encoded_string.binary_search_by(|probe| probe.len.cmp(&x))`:
`Sum.inl i` models `Ok(i)` and `Sum.inr i` models `Err(i)` (the insertion
index).  For a list whose `len` keys are strictly increasing — the invariant
of every factor list produced by `encode_parts` — this computes exactly the
documented result of `slice::binary_search_by`: `Ok` at the unique position
whose key equals `x`, otherwise `Err` at the number of keys less than `x`. -/
def binary_search_by_len (es : EncodedString) (x : Nat) : Sum Nat Nat :=
  match es with
  | [] => Sum.inr 0
  | f :: rest =>
    if f.len = x then Sum.inl 0
    else if f.len < x then
      match binary_search_by_len rest x with
      | Sum.inl j => Sum.inl (j + 1)
      | Sum.inr j => Sum.inr (j + 1)
    else Sum.inr 0

/-- The per-sequence body of `internal_random_access`: binary-search the
factor list for the part whose cumulative offset covers `x`, stepping back
one position on a miss (`Err(0)` models the `i - 1` usize underflow panic),
then read `base[start + (x - len)]` (the subtraction-underflow and
index-out-of-bounds panics are modelled by `none`). -/
def access_in_list (base : List Nat) (es : EncodedString) (x : Nat) : Option Nat :=
  let idx? : Option Nat :=
    match binary_search_by_len es x with
    | Sum.inl j => some j
    | Sum.inr j => if j = 0 then none else some (j - 1)
  match idx? with
  | none => none
  | some idx =>
    match es[idx]? with
    | none => none
    | some part =>
      if part.len ≤ x then base[part.range.1 + (x - part.len)]? else none

/-- Rust `internal_random_access` (lines 457-488): gets the `x`'th byte of the
`i`'th encoded string. -/
def internal_random_access (rlz : RelativeLempelZiv) (i x : Nat) : Option Nat :=
  match rlz.data[i]? with
  | none => none
  | some es => access_in_list rlz.base_data es x

/-- Rust `LabelData` (`src/suffix_tree/src/lib.rs` lines 24-28, identically
`src/suffix_tree/src/types/label_data.rs` lines 13-17): a label element is a
real byte or the end-separator. -/
inductive LabelData where
  | Byte (b : Nat)
  | Sep
  deriving Repr, DecidableEq

/-- Rust `Ord::cmp for LabelData` in the live `src/suffix_tree/src/lib.rs`
(lines 53-64): bytes compare as bytes, `Sep` equals `Sep`, and —
despite the adjacent comment saying the separator is "first" in the
ordering — `(Byte, Sep) => Less` and `(Sep, Byte) => Greater`. -/
def LabelData.cmp : LabelData → LabelData → Ordering
  | .Byte b1, .Byte b2 => compare b1 b2
  | .Sep, .Sep => .eq
  | .Byte _, .Sep => .lt
  | .Sep, .Byte _ => .gt

/-- Rust `Ord::cmp for LabelData` in the (unused in this revision)
`src/suffix_tree/src/types/label_data.rs` (lines 71-83): the separator is
the lowest value: `(Byte, Sep) => Greater`, `(Sep, Byte) => Less`. -/
def LabelData.cmpTypes : LabelData → LabelData → Ordering
  | .Byte b1, .Byte b2 => compare b1 b2
  | .Sep, .Sep => .eq
  | .Byte _, .Sep => .gt
  | .Sep, .Byte _ => .lt

/-! ### Reference-merge strategy
(`encode_by_reference_merge`, lines 163-239, and
`src/relative_lempel_ziv/src/analysis.rs`).

Sizes are exact naturals: `internal_memory_single_list` is
`capacity * size_of::<T>()`, and after `to_vec` / `shrink_to_fit` the
capacities equal the lengths; `size_of::<EncodePart<U>>()` is the parameter
`partSize`.  The `f64` compression rates all have the fixed positive
denominator `total` (resp. the per-input raw size), so the source's float
comparisons are modelled by exact cross-multiplied natural comparisons. -/
/-- Rust `Analysis` (analysis.rs lines 11-31): factor count, compressed size,
raw size, and the input's name (an opaque identifier, modelled as `Nat`). -/
structure Analysis where
  len : Nat
  c_size : Nat
  r_size : Nat
  name : Nat
  deriving Repr, DecidableEq

/-- Exact comparison `a.c_size / a.r_size > b.c_size / b.r_size` of the
`f64` compressed rates, by cross-multiplication.  This matches the IEEE
comparison for all values that are not NaN (division by a zero raw size
with a zero compressed size; that case panics the sort, see
`worst_sort_ok`). -/
def rateGt (a b : Analysis) : Bool :=
  b.c_size * a.r_size < a.c_size * b.r_size

/-- Rust `AnalysisResult::new` (analysis.rs lines 48-55) sorts with
`partial_cmp(..).unwrap()`: the unwrap panics as soon as a NaN rate
(`0.0 / 0.0`, i.e. an empty input) takes part in a comparison, which happens
exactly when the list has at least two elements and contains such an
element. -/
def worst_sort_ok (list : List Analysis) : Bool :=
  !(2 ≤ list.length && list.any fun a => a.c_size == 0 && a.r_size == 0)

/-- First element of maximal rate (earliest on ties): the head of the
descending stable sort of `AnalysisResult::new`. -/
def worstAux (best : Analysis) : List Analysis → Analysis
  | [] => best
  | a :: rest => if rateGt a best then worstAux a rest else worstAux best rest

/-- Rust `AnalysisResult::worst_reference_string` (analysis.rs lines 59-61):
`self.list[0]` of the descending-sorted list; panics (`none`) on an empty
list. -/
def worst_reference_string (list : List Analysis) : Option Nat :=
  match list with
  | [] => none
  | a :: rest => some (worstAux a rest).name

/-- The analyses built in the merge loop (lib.rs lines 199-206): for each
input (paired with its factor list, in order), the factor count, the
factor-table bytes `len * size_of::<EncodePart>`, the raw length, and the
name. -/
def mkAnalyses (partSize : Nat) :
    List (List Nat × Nat) → List EncodedString → List Analysis
  | [], _ => []
  | _, [] => []
  | (s, nm) :: raw, es :: data =>
      { len := es.length, c_size := es.length * partSize,
        r_size := s.length, name := nm } :: mkAnalyses partSize raw data

/-- Rust `internal_memory_string_list`: the total byte size of a list of strings. -/
def internal_memory_string_list (v : List (List Nat)) : Nat :=
  (v.map List.length).sum

/-- Rust `internal_memory_footprint` (lines 417-455): the byte sizes of
`base_data` and of the factor tables. -/
def internal_memory_footprint (partSize : Nat) (rlz : RelativeLempelZiv) : Nat × Nat :=
  (rlz.base_data.length, (rlz.data.map fun es => es.length * partSize).sum)

/-- Rust `base_string_by_name` (lines 152-161): join the inputs whose name is
contained in `names`, in input order, and append `"ACGTN"`. -/
def base_string_by_name (strings : List (List Nat × Nat)) (names : List Nat) : List Nat :=
  ((strings.filter fun p => names.contains p.2).map fun p => p.1).flatten ++ ACGTN

/-- Rust `strings.choose(&mut rand::thread_rng())`: `None` exactly on an empty
slice; the random draw is modelled by an explicit seed selecting an index. -/
def choose (seed : Nat) (strings : List (List Nat × Nat)) : Option (List Nat × Nat) :=
  strings[seed % strings.length]?

/-- The loop state of `encode_by_reference_merge`: the chosen reference
names, the best compression rate so far — kept as the numerator over the
fixed denominator `total` (the initial `1.0` is `total / total`) — and the
best archive so far. -/
structure MergeState where
  reference_names : List Nat
  bestNumer : Nat
  best_rlz : Option RelativeLempelZiv
  deriving Repr, DecidableEq

/-- One iteration of the merge loop (lines 185-231): rebuild the reference
from the chosen names, refactorize all inputs, build and sort the analyses,
and compare the new overall rate with the best: strictly smaller
(`newSum < bestNumer` over the common denominator) accepts — push the
worst-compressed name, record the archive, continue — otherwise return the
previous best.  `Sum.inr none` models the panics (factorization `expect`,
the NaN `sort_by` unwrap, and — at the final `return` — `best_rlz.expect`
when no iteration ever improved). -/
def mergeStep (partSize : Nat) (strings : List (List Nat × Nat))
    (st : MergeState) : Sum MergeState (Option RelativeLempelZiv) :=
  match encode_parts (strings.map fun p => p.1)
      (base_string_by_name strings st.reference_names) with
  | none => Sum.inr none
  | some rlz =>
    if worst_sort_ok (mkAnalyses partSize strings rlz.data) then
      let fp := internal_memory_footprint partSize rlz
      if fp.1 + fp.2 < st.bestNumer then
        match worst_reference_string (mkAnalyses partSize strings rlz.data) with
        | none => Sum.inr none
        | some worst =>
          Sum.inl { reference_names := st.reference_names ++ [worst],
                    bestNumer := fp.1 + fp.2,
                    best_rlz := some rlz }
      else Sum.inr st.best_rlz
    else Sum.inr none

/-- Run the merge loop for at most `fuel` iterations, returning the state at
exit together with the returned value; `none` when the fuel is exhausted. -/
def mergeRun (partSize : Nat) (strings : List (List Nat × Nat)) :
    Nat → MergeState → Option (MergeState × Option RelativeLempelZiv)
  | 0, _ => none
  | fuel + 1, st =>
    match mergeStep partSize strings st with
    | Sum.inl st' => mergeRun partSize strings fuel st'
    | Sum.inr res => some (st, res)

/-- Rust `encode_by_reference_merge` (lines 163-239): choose a random initial
reference input, start from best rate `1.0` (`total` over `total`), and
loop.  Fuel `total + 1` always suffices because each accepted iteration
strictly decreases the best numerator (`mergeRun_fuel_sufficient`). -/
def encode_by_reference_merge (partSize seed : Nat)
    (strings : List (List Nat × Nat)) : Option RelativeLempelZiv :=
  match choose seed strings with
  | none => none
  | some initial =>
    let total := internal_memory_string_list (strings.map fun p => p.1)
    match mergeRun partSize strings (total + 1)
        { reference_names := [initial.2], bestNumer := total, best_rlz := none } with
    | none => none
    | some (_, res) => res

/-! ### The Ukkonen suffix-tree builder
(`init_suffix_tree`, `src/suffix_tree/src/lib.rs` lines 239-463).

The port follows the source statement by statement.  The node vector is a
list indexed by node id (ids equal indices by construction, as in the
source); the shared `Rc<Cell<usize>>` leaf end is an `EndRef.global` marker
resolved against the builder's current `globalEnd`, and an internal node
fixed at a split stores `EndRef.fixed`.  Rust panics (`unwrap` on missing
children or suffix links, out-of-bounds indexing and slicing, usize
subtraction underflow) are `BuildRes.panic`; the fuel arguments only bound
the two inner loops and the generous bound `n + 2` distinguishes a genuine
result from fuel exhaustion (`BuildRes.fuelOut`). -/
/-- Result of running imperative builder code: a value, a Rust panic, or an
artifact of the model's loop fuel running out. -/
inductive BuildRes (α : Type) where
  | ok (a : α)
  | panic
  | fuelOut
  deriving Repr, DecidableEq

/-- An edge-end reference: the shared global end (`Rc` clone of the
builder's cell) or a fixed value (the fresh cell installed at a split). -/
inductive EndRef where
  | global
  | fixed (n : Nat)
  deriving Repr, DecidableEq

/-- A suffix-tree node (lib.rs lines 85-100); `endRef` models the
`Rc<Cell<usize>>` end: shared-global for nodes created by `Node::new`,
fixed for nodes split at an internal position. -/
structure StNode where
  id : Nat
  parent : Option Nat
  children : List (LabelData × Nat)
  suffix_link : Option Nat
  start : Nat
  endRef : EndRef
  deriving Repr, DecidableEq

/-- Rust `BTreeMap::get` on the children map. -/
def childFind (cs : List (LabelData × Nat)) (k : LabelData) : Option Nat :=
  match cs with
  | [] => none
  | (k', v') :: rest => if k' = k then some v' else childFind rest k

/-- Rust `BTreeMap::insert` on the children map (replace an existing key). -/
def childInsert (cs : List (LabelData × Nat)) (k : LabelData) (v : Nat) :
    List (LabelData × Nat) :=
  match cs with
  | [] => [(k, v)]
  | (k', v') :: rest => if k' = k then (k, v) :: rest else (k', v') :: childInsert rest k v

/-- Rust `node.end()` resolved against the current global end. -/
def StNode.endVal (n : StNode) (g : Nat) : Nat :=
  match n.endRef with
  | .global => g
  | .fixed e => e

/-- Rust `node.length()` = `end - start`. -/
def StNode.len (n : StNode) (g : Nat) : Nat := n.endVal g - n.start

/-- The mutable state of `init_suffix_tree` (lib.rs lines 240-282). -/
structure UkkState where
  nodes : List StNode
  globalEnd : Nat
  last_new_node : Option Nat
  active_node : Nat
  active_edge : Nat
  active_length : Nat
  remaining_suffix_count : Nat
  deriving Repr, DecidableEq

/-- The innermost `loop` of the builder (lib.rs lines 340-397): locate the
next character along the active edge, walking down over child edges.
Returns the updated state, the found `next_byte`, and the
`found_next_character` flag; in case (3) the loop creates a leaf, rewires
suffix links, updates the active point and `remaining_suffix_count`, and
breaks with the flag false. -/
def walkdown (bytes : List LabelData) (i : Nat) :
    Nat → UkkState → BuildRes (UkkState × Option LabelData × Bool)
  | 0, _ => .fuelOut
  | fuel + 1, st =>
    match st.nodes[st.active_node]? with
    | none => .panic
    | some anode =>
      match bytes[st.active_edge]? with
      | none => .panic
      | some key =>
        match childFind anode.children key with
        | none => .panic
        | some n =>
          match st.nodes[n]? with
          | none => .panic
          | some node =>
            if node.len st.globalEnd > st.active_length then
              -- (1): the next character is on this label;
              -- `label_of_node(node)[active_length]`, including the
              -- slice-bounds panics of `&string[start..end]`
              if node.start ≤ node.endVal st.globalEnd ∧
                  node.endVal st.globalEnd ≤ bytes.length then
                match bytes[node.start + st.active_length]? with
                | none => .panic
                | some nb => .ok (st, some nb, true)
              else .panic
            else if node.len st.globalEnd = st.active_length then
              match childFind node.children key with
              | some _ =>
                -- (2): the next character starts a child of `node`
                .ok (st, some key, true)
              | none =>
                -- (3): create a leaf under `node` and short-circuit
                let node_id := node.id
                let new_node : StNode :=
                  { id := st.nodes.length, parent := some node_id, children := [],
                    suffix_link := none, start := i, endRef := .global }
                let nodes1 := st.nodes.set node_id
                  { node with children := childInsert node.children key new_node.id }
                let nodes2 := nodes1 ++ [new_node]
                let nodes3 :=
                  match st.last_new_node with
                  | some lid =>
                    match nodes2[lid]? with
                    | some lnode => nodes2.set lid { lnode with suffix_link := some node_id }
                    | none => nodes2
                  | none => nodes2
                let st1 := { st with
                  nodes := nodes3
                  last_new_node := some node_id
                  remaining_suffix_count := st.remaining_suffix_count - 1 }
                if st.active_node ≠ 0 then
                  match nodes3[node_id]? with
                  | none => .panic
                  | some nd =>
                    match nd.suffix_link with
                    | none => .panic
                    | some sl => .ok ({ st1 with active_node := sl }, none, false)
                else
                  -- `active_length -= 1` would underflow at 0
                  if st.active_length = 0 then .panic
                  else .ok ({ st1 with
                    active_edge := st.active_edge + 1
                    active_length := st.active_length - 1 }, none, false)
            else
              -- walk down: advance the active point and repeat
              match childFind node.children key with
              | none => .panic
              | some gc =>
                walkdown bytes i fuel
                  { st with
                    active_node := gc
                    active_length := st.active_length - node.len st.globalEnd - 1
                    active_edge := st.active_edge + node.len st.globalEnd + 1 }

/-- The `while remaining_suffix_count > 0` loop of one phase (lib.rs lines
294-458).  The first fuel bounds the while iterations, the second is handed
to each `walkdown` call. -/
def phase (bytes : List LabelData) (i : Nat) (b : LabelData) :
    Nat → Nat → UkkState → BuildRes UkkState
  | 0, _, _ => .fuelOut
  | wf + 1, wkf, st =>
    if st.remaining_suffix_count = 0 then .ok st
    else if st.active_length = 0 then
      match st.nodes[st.active_node]? with
      | none => .panic
      | some anode =>
        match childFind anode.children b with
        | some child =>
          -- rule 3 from the root: update the active point and end the phase
          match st.nodes[child]? with
          | none => .panic
          | some cnode =>
            .ok { st with
              active_edge := cnode.start
              active_length := st.active_length + 1 }
        | none =>
          -- rule 2: create a leaf child of the active node
          let new_node : StNode :=
            { id := st.nodes.length, parent := some anode.id, children := [],
              suffix_link := none, start := i, endRef := .global }
          let nodes1 := st.nodes.set st.active_node
            { anode with children := childInsert anode.children b new_node.id }
          phase bytes i b wf wkf { st with
            nodes := nodes1 ++ [new_node]
            remaining_suffix_count := st.remaining_suffix_count - 1 }
    else
      match walkdown bytes i wkf st with
      | .panic => .panic
      | .fuelOut => .fuelOut
      | .ok (st', nb?, found) =>
        if found = false then .ok st'
        else
          match nb? with
          | none => .panic
          | some nb =>
            if nb = b then
              -- rule 3: continue along the edge and end the phase
              .ok { st' with active_length := st'.active_length + 1 }
            else
              -- rule 2: split the edge, inserting two new nodes
              match st'.nodes[st'.active_node]? with
              | none => .panic
              | some anode' =>
                match st'.nodes[0]? with
                | none => .panic
                | some rootnode =>
                  let root_id := rootnode.id
                  match bytes[st'.active_edge]? with
                  | none => .panic
                  | some key =>
                    match childFind anode'.children key with
                    | none => .panic
                    | some n =>
                      match st'.nodes[n]? with
                      | none => .panic
                      | some node =>
                        let nodes_len := st'.nodes.length
                        let new_node : StNode :=
                          { id := nodes_len, parent := some node.id, children := [],
                            suffix_link := none,
                            start := node.start + st'.active_length, endRef := .global }
                        let new_node2 : StNode :=
                          { id := nodes_len + 1, parent := some node.id, children := [],
                            suffix_link := none, start := i, endRef := .global }
                        let node_to_update_id := node.id
                        match bytes[new_node.start]?, bytes[new_node2.start]? with
                        | some key1, some key2 =>
                          let node' := { node with
                            endRef := .fixed (node.start + st'.active_length)
                            children := childInsert
                              (childInsert node.children key1 new_node.id)
                              key2 new_node2.id
                            suffix_link := some root_id }
                          let nodes1 := st'.nodes.set n node'
                          let nodes2 :=
                            match st'.last_new_node with
                            | some lid =>
                              match nodes1[lid]? with
                              | some lnode =>
                                nodes1.set lid { lnode with suffix_link := some node_to_update_id }
                              | none => nodes1
                            | none => nodes1
                          let nodes3 := nodes2 ++ [new_node, new_node2]
                          let st1 := { st' with
                            nodes := nodes3
                            remaining_suffix_count := st'.remaining_suffix_count - 1
                            last_new_node := some node_to_update_id }
                          if st'.active_node = root_id then
                            if st'.active_length = 0 then .panic
                            else
                              phase bytes i b wf wkf { st1 with
                                active_length := st'.active_length - 1
                                active_edge := st'.active_edge + 1 }
                          else
                            match nodes3[node_to_update_id]? with
                            | none => .panic
                            | some ndu =>
                              match ndu.suffix_link with
                              | none => .panic
                              | some sl =>
                                phase bytes i b wf wkf { st1 with active_node := sl }
                        | _, _ => .panic

/-- The outer `for (i, &b) in bytes_and_sep.iter().enumerate()` loop
(lib.rs lines 284-459): advance the global end and the pending-suffix
count, clear `last_new_node`, and run the phase. -/
def ukkFold (bytes : List LabelData) (fuel : Nat) :
    List LabelData → Nat → UkkState → BuildRes UkkState
  | [], _, st => .ok st
  | b :: rest, i, st =>
    let st0 := { st with
      globalEnd := st.globalEnd + 1
      remaining_suffix_count := st.remaining_suffix_count + 1
      last_new_node := none }
    match phase bytes i b fuel fuel st0 with
    | .panic => .panic
    | .fuelOut => .fuelOut
    | .ok st' => ukkFold bytes fuel rest (i + 1) st'

/-- Rust `init_suffix_tree` (lib.rs lines 239-463): run Ukkonen over the
byte list extended with the separator, starting from the lone root.  The
result is the node arena.  Fuel `n + 2` strictly dominates both inner
loops: the while loop runs at most `remaining_suffix_count + 1 ≤ n + 2`
iterations per phase and the walk-down at most `active_length + 1 ≤ n + 2`. -/
def init_suffix_tree (s : List Nat) : BuildRes (List StNode) :=
  let bytes := s.map LabelData.Byte ++ [LabelData.Sep]
  let root : StNode :=
    { id := 0, parent := none, children := [], suffix_link := none,
      start := 0, endRef := .global }
  let st0 : UkkState :=
    { nodes := [root], globalEnd := 0, last_new_node := none, active_node := 0,
      active_edge := 0, active_length := 0, remaining_suffix_count := 0 }
  match ukkFold bytes (bytes.length + 2) bytes 0 st0 with
  | .ok st => .ok st.nodes
  | .panic => .panic
  | .fuelOut => .fuelOut

/-- Number of leaves of the built arena: nodes with no children
(`Node::is_leaf` in the `types` revision; the spec's leaf count). -/
def countLeaves (nodes : List StNode) : Nat :=
  (nodes.filter fun nd => nd.children.isEmpty).length

/-- Leaf count of the tree built over `s` (with the sentinel appended),
when construction runs to completion without a panic. -/
def built_leaf_count (s : List Nat) : Option Nat :=
  match init_suffix_tree s with
  | .ok ns => some (countLeaves ns)
  | .panic => none
  | .fuelOut => none

/-! ### Theorems -/

theorem startsWith_iff (p l : List Nat) :
    startsWith p l = true ↔ l.take p.length = p := by
  induction p generalizing l with
  | nil => simp [startsWith]
  | cons a ps ih =>
    cases l with
    | nil => simp [startsWith]
    | cons x xs =>
      simp only [startsWith, List.length_cons, List.take_succ_cons,
        Bool.and_eq_true, beq_iff_eq]
      constructor
      · rintro ⟨h1, h2⟩
        rw [(ih xs).mp h2, h1]
      · intro h
        injection h with h1 h2
        exact ⟨h1.symm, (ih xs).mpr h2⟩

theorem findSub_sound {p l : List Nat} {s : Nat} (h : findSub p l = some s) :
    s + p.length ≤ l.length ∧ (l.drop s).take p.length = p := by
  induction l generalizing s with
  | nil =>
    simp only [findSub] at h
    split at h
    · rename_i hsw
      cases h
      rw [startsWith_iff] at hsw
      have : p = [] := by simpa using hsw.symm
      subst this
      simp
    · cases h
  | cons x l ih =>
    simp only [findSub] at h
    split at h
    · rename_i hsw
      cases h
      rw [startsWith_iff] at hsw
      have hlen := List.length_take p.length (x :: l)
      rw [hsw] at hlen
      refine ⟨?_, by simpa using hsw⟩
      calc 0 + p.length = p.length := by omega
        _ ≤ (x :: l).length := hlen.le.trans (min_le_right _ _)
    · cases hfs : findSub p l with
      | none => rw [hfs] at h; cases h
      | some t =>
        rw [hfs] at h
        simp only [Option.map_some'] at h
        cases h
        obtain ⟨h1, h2⟩ := ih hfs
        exact ⟨by simpa using Nat.succ_le_succ (by omega), by simpa using h2⟩

theorem findSub_complete {p l : List Nat} {s : Nat}
    (hlen : s + p.length ≤ l.length) (htake : (l.drop s).take p.length = p) :
    (findSub p l).isSome := by
  induction l generalizing s with
  | nil =>
    have hp : p = [] := by
      cases p with
      | nil => rfl
      | cons a q => simp at hlen
    subst hp
    simp [findSub, startsWith]
  | cons x l ih =>
    cases s with
    | zero =>
      simp only [List.drop_zero] at htake
      have hsw : startsWith p (x :: l) = true := (startsWith_iff p (x :: l)).mpr htake
      simp [findSub, hsw]
    | succ t =>
      simp only [List.drop_succ_cons] at htake
      have hlen' : t + p.length ≤ l.length := by
        simp only [List.length_cons] at hlen; omega
      have := ih hlen' htake
      simp only [findSub]
      split
      · simp
      · simpa using this

theorem bestLenAux_le (R b : List Nat) (k : Nat) : bestLenAux R b k ≤ k := by
  induction k with
  | zero => simp [bestLenAux]
  | succ k ih =>
    simp only [bestLenAux]
    split
    · exact le_refl _
    · exact ih.trans (Nat.le_succ k)

theorem bestLenAux_occurs (R b : List Nat) (k : Nat)
    (h : 0 < bestLenAux R b k) :
    occursIn R (b.take (bestLenAux R b k)) = true := by
  induction k with
  | zero => simp [bestLenAux] at h
  | succ k ih =>
    simp only [bestLenAux] at h ⊢
    split
    · rename_i hocc
      exact hocc
    · rename_i hocc
      rw [if_neg hocc] at h
      exact ih h

theorem bestLenAux_max (R b : List Nat) (k j : Nat) (hj : j ≤ k)
    (hocc : occursIn R (b.take j) = true) : j ≤ bestLenAux R b k := by
  induction k with
  | zero => omega
  | succ k ih =>
    simp only [bestLenAux]
    split
    · exact hj
    · rename_i hnot
      rcases Nat.lt_or_ge j (k + 1) with hlt | hge
      · exact ih (by omega)
      · exfalso
        have hjeq : j = k + 1 := by omega
        rw [hjeq] at hocc
        exact hnot hocc

theorem occursIn_cons_mem {R : List Nat} {x : Nat} {q : List Nat}
    (h : occursIn R (x :: q) = true) : x ∈ R := by
  rw [occursIn, Option.isSome_iff_exists] at h
  obtain ⟨s, hs⟩ := h
  obtain ⟨hlen, htake⟩ := findSub_sound hs
  cases hR : R.drop s with
  | nil => rw [hR] at htake; simp at htake
  | cons y t =>
    rw [hR] at htake
    simp only [List.length_cons, List.take_succ_cons] at htake
    injection htake with h1 _
    subst h1
    exact List.drop_subset s R (hR ▸ List.mem_cons_self _ _)

theorem mem_occursIn {R : List Nat} {x : Nat} (h : x ∈ R) :
    occursIn R [x] = true := by
  obtain ⟨n, hn, hx⟩ := List.getElem_of_mem h
  rw [occursIn]
  have hdrop : R.drop n = x :: R.drop (n + 1) := by
    rw [List.drop_eq_getElem_cons hn, hx]
  have := findSub_complete (p := [x]) (l := R) (s := n)
    (by simpa using hn) (by rw [hdrop]; simp)
  exact this

theorem bestLen_le (R b : List Nat) : bestLen R b ≤ b.length := bestLenAux_le R b b.length

theorem longest_substring_some_spec {R b : List Nat} {s e : Nat}
    (h : longest_substring R b = some (s, e)) :
    s < e ∧ e ≤ R.length ∧ e - s ≤ b.length ∧
      (R.drop s).take (e - s) = b.take (e - s) := by
  rw [longest_substring] at h
  split at h
  · cases h
  · rename_i hk
    cases hfs : findSub (b.take (bestLen R b)) R with
    | none => rw [hfs] at h; cases h
    | some t =>
      rw [hfs] at h
      simp only [Option.map_some', Option.some.injEq, Prod.mk.injEq] at h
      obtain ⟨h1, h2⟩ := h
      obtain ⟨hlen, htake⟩ := findSub_sound hfs
      have hbl : (b.take (bestLen R b)).length = bestLen R b := by
        simp [List.length_take, Nat.min_eq_left (bestLen_le R b)]
      rw [hbl] at hlen htake
      have hk0 : 0 < bestLen R b := Nat.pos_of_ne_zero hk
      have hes : e - s = bestLen R b := by omega
      refine ⟨by omega, by omega, ?_, ?_⟩
      · have := bestLen_le R b
        omega
      · rw [hes, ← h1, htake]

theorem longest_substring_max {R b : List Nat} {s e : Nat}
    (h : longest_substring R b = some (s, e)) :
    ∀ j, j ≤ b.length → occursIn R (b.take j) = true → j ≤ e - s := by
  intro j hj hocc
  rw [longest_substring] at h
  split at h
  · cases h
  · rename_i hk
    cases hfs : findSub (b.take (bestLen R b)) R with
    | none => rw [hfs] at h; cases h
    | some t =>
      rw [hfs] at h
      simp only [Option.map_some', Option.some.injEq, Prod.mk.injEq] at h
      obtain ⟨h1, h2⟩ := h
      have hes : e - s = bestLen R b := by omega
      rw [hes]
      exact bestLenAux_max R b b.length j hj hocc

theorem longest_substring_none_iff {R : List Nat} {x : Nat} {t : List Nat} :
    longest_substring R (x :: t) = none ↔ x ∉ R := by
  constructor
  · intro h hx
    rw [longest_substring] at h
    split at h
    · rename_i hk
      have h1 : occursIn R ((x :: t).take 1) = true := by
        simpa using mem_occursIn hx
      have := bestLenAux_max R (x :: t) (x :: t).length 1 (by simp) h1
      rw [bestLen] at hk
      omega
    · rename_i hk
      have hocc := bestLenAux_occurs R (x :: t) (x :: t).length (by rw [bestLen] at hk; omega)
      rw [← bestLen] at hocc
      rw [occursIn, Option.isSome_iff_exists] at hocc
      obtain ⟨u, hu⟩ := hocc
      rw [hu] at h
      simp at h
  · intro hx
    rw [longest_substring]
    split
    · rfl
    · rename_i hk
      exfalso
      have hocc := bestLenAux_occurs R (x :: t) (x :: t).length (by rw [bestLen] at hk; omega)
      rw [← bestLen] at hocc
      have hbl : 0 < bestLen R (x :: t) := by omega
      have : (x :: t).take (bestLen R (x :: t)) = x :: t.take (bestLen R (x :: t) - 1) := by
        cases hb : bestLen R (x :: t) with
        | zero => omega
        | succ m => simp [hb]
      rw [this] at hocc
      exact hx (occursIn_cons_mem hocc)

theorem encode_parts_go_inv {R S : List Nat} :
    ∀ (fuel c : Nat) (es : EncodedString),
      encode_parts_go R fuel (S.drop c) c = some es → c ≤ S.length →
        seqInv R S c es := by
  intro fuel
  induction fuel with
  | zero =>
    intro c es h hc
    cases hT : S.drop c with
    | nil =>
      rw [hT] at h
      simp only [encode_parts_go, Option.some.injEq] at h
      subst h
      have := List.drop_eq_nil_iff.mp hT
      simpa [seqInv] using by omega
    | cons x s =>
      rw [hT] at h
      simp [encode_parts_go] at h
  | succ fuel ih =>
    intro c es h hc
    cases hT : S.drop c with
    | nil =>
      rw [hT] at h
      simp only [encode_parts_go, Option.some.injEq] at h
      subst h
      have := List.drop_eq_nil_iff.mp hT
      simpa [seqInv] using by omega
    | cons x s =>
      rw [hT] at h
      cases hls : longest_substring R (x :: s) with
      | none => simp [encode_parts_go, hls] at h
      | some p =>
        obtain ⟨st, en⟩ := p
        simp only [encode_parts_go, hls] at h
        obtain ⟨h1, h2, h3, h4⟩ := longest_substring_some_spec hls
        have hclen : c + (x :: s).length = S.length := by
          have := congrArg List.length hT
          simp only [List.length_drop] at this
          omega
        cases hrec : encode_parts_go R fuel ((x :: s).drop (en - st)) (c + (en - st)) with
        | none => simp [hrec] at h
        | some rest =>
          simp only [hrec, Option.some.injEq] at h
          subst h
          have hdrop : (x :: s).drop (en - st) = S.drop (c + (en - st)) := by
            rw [← hT, List.drop_drop]
          rw [hdrop] at hrec
          have hrest := ih (c + (en - st)) rest hrec (by omega)
          refine ⟨rfl, h1, h2, ?_, ?_, hrest⟩
          · show en - st ≤ S.length - c
            omega
          · show (R.drop st).take (en - st) = (S.drop c).take (en - st)
            rw [hT]
            exact h4

theorem encode_parts_go_fuel_irrelevant {R : List Nat} :
    ∀ (fuel fuel' : Nat) (T : List Nat) (len : Nat),
      T.length ≤ fuel → T.length ≤ fuel' →
        encode_parts_go R fuel T len = encode_parts_go R fuel' T len := by
  intro fuel
  induction fuel with
  | zero =>
    intro fuel' T len h h'
    cases T with
    | nil => cases fuel' <;> rfl
    | cons x s => simp at h
  | succ fuel ih =>
    intro fuel' T len h h'
    cases T with
    | nil => cases fuel' <;> rfl
    | cons x s =>
      cases fuel' with
      | zero => simp at h'
      | succ fuel' =>
        simp only [encode_parts_go]
        cases hls : longest_substring R (x :: s) with
        | none => rfl
        | some p =>
          obtain ⟨st, en⟩ := p
          simp only [hls]
          have h1 := (longest_substring_some_spec hls).1
          have hlen : ((x :: s).drop (en - st)).length ≤ fuel := by
            simp only [List.length_drop, List.length_cons] at *
            omega
          have hlen' : ((x :: s).drop (en - st)).length ≤ fuel' := by
            simp only [List.length_drop, List.length_cons] at *
            omega
          rw [ih fuel' ((x :: s).drop (en - st)) (len + (en - st)) hlen hlen']

theorem seqInv_decode {R S : List Nat} :
    ∀ (c : Nat) (es : EncodedString), seqInv R S c es →
      (mapOption (fun part => sliceRange R part.range.1 part.range.2) es).map
          List.flatten = some (S.drop c) := by
  intro c es
  induction es generalizing c with
  | nil =>
    intro h
    have hc : c = S.length := h
    simp [mapOption, hc, List.drop_length]
  | cons f rest ih =>
    intro h
    obtain ⟨hlen, hlt, hle, hdle, htake, hrest⟩ := h
    have hslice : sliceRange R f.range.1 f.range.2 =
        some ((R.drop f.range.1).take (f.range.2 - f.range.1)) := by
      rw [sliceRange, if_pos ⟨le_of_lt hlt, hle⟩]
    have hihres := ih (c + (f.range.2 - f.range.1)) hrest
    simp only [mapOption, hslice]
    cases hmo : mapOption (fun part => sliceRange R part.range.1 part.range.2) rest with
    | none => rw [hmo] at hihres; simp at hihres
    | some bs =>
      rw [hmo] at hihres
      simp only [Option.map_some', Option.some.injEq] at hihres ⊢
      rw [List.flatten_cons, htake, hihres]
      calc (S.drop c).take (f.range.2 - f.range.1) ++ S.drop (c + (f.range.2 - f.range.1))
          = (S.drop c).take (f.range.2 - f.range.1) ++
              (S.drop c).drop (f.range.2 - f.range.1) := by rw [List.drop_drop]
        _ = S.drop c := List.take_append_drop _ _

theorem mapOption_length {α β : Type} {f : α → Option β} :
    ∀ {l : List α} {res : List β}, mapOption f l = some res → res.length = l.length := by
  intro l
  induction l with
  | nil => intro res h; cases h; rfl
  | cons a l ih =>
    intro res h
    simp only [mapOption] at h
    cases hfa : f a with
    | none => rw [hfa] at h; cases h
    | some b =>
      rw [hfa] at h
      cases hmo : mapOption f l with
      | none => rw [hmo] at h; cases h
      | some bs =>
        rw [hmo] at h
        cases h
        simp [ih hmo]

theorem mapOption_getElem? {α β : Type} {f : α → Option β} :
    ∀ {l : List α} {res : List β}, mapOption f l = some res →
      ∀ i : Nat, res[i]? = (l[i]?).bind f := by
  intro l
  induction l with
  | nil =>
    intro res h i
    cases h
    simp
  | cons a l ih =>
    intro res h i
    simp only [mapOption] at h
    cases hfa : f a with
    | none => rw [hfa] at h; cases h
    | some b =>
      rw [hfa] at h
      cases hmo : mapOption f l with
      | none => rw [hmo] at h; cases h
      | some bs =>
        rw [hmo] at h
        cases h
        cases i with
        | zero => simp [hfa]
        | succ j => simpa using ih hmo j

theorem mapOption_decode {R : List Nat} :
    ∀ (strings : List (List Nat)) (data : List EncodedString),
      mapOption (fun s => encode_parts_go R s.length s 0) strings = some data →
        mapOption
          (fun es =>
            (mapOption (fun part => sliceRange R part.range.1 part.range.2) es).map
              List.flatten)
          data = some strings := by
  intro strings
  induction strings with
  | nil =>
    intro data h
    cases h
    rfl
  | cons s ss ih =>
    intro data h
    simp only [mapOption] at h
    cases hgo : encode_parts_go R s.length s 0 with
    | none => rw [hgo] at h; cases h
    | some es =>
      rw [hgo] at h
      cases hmo : mapOption (fun s => encode_parts_go R s.length s 0) ss with
      | none => rw [hmo] at h; cases h
      | some rest =>
        rw [hmo] at h
        cases h
        have hinv : seqInv R s 0 es := by
          apply encode_parts_go_inv s.length 0 es
          · rw [List.drop_zero]
            exact hgo
          · exact Nat.zero_le _
        have hdec := seqInv_decode 0 es hinv
        rw [List.drop_zero] at hdec
        simp only [mapOption, hdec, ih rest hmo]

/-- Claim C1 (amended): whenever fixed-indices encoding succeeds, decoding
the archive returns exactly the input list, byte for byte, the decoder
concatenating `R[f.start .. f.end]` over each sequence's factors in order. -/
theorem C1_encode_decode_roundtrip (strings : List (List Nat)) (n : Option (List Nat))
    (rlz : RelativeLempelZiv) (h : encode strings n = some rlz) :
    internal_decode rlz = some strings := by
  rw [encode] at h
  cases hbs : base_string strings n with
  | none => simp [hbs] at h
  | some R =>
    simp only [hbs] at h
    rw [encode_parts] at h
    cases hmo : mapOption (fun s => encode_parts_go R s.length s 0) strings with
    | none => rw [hmo] at h; cases h
    | some data =>
      rw [hmo] at h
      simp only [Option.map_some', Option.some.injEq] at h
      subst h
      rw [internal_decode]
      exact mapOption_decode strings data hmo

theorem access_in_list_spec {R S : List Nat} :
    ∀ (c : Nat) (es : EncodedString), seqInv R S c es → ∀ x, c ≤ x → x < S.length →
      access_in_list R es x = S[x]? := by
  intro c es
  induction es generalizing c with
  | nil =>
    intro h x hcx hx
    exfalso
    have : c = S.length := h
    omega
  | cons f rest ih =>
    intro h x hcx hx
    obtain ⟨hflen, hlt, hle, hdle, htake, hrest⟩ := h
    by_cases hxd : x < c + (f.range.2 - f.range.1)
    · -- the byte lies inside factor `f`: the search selects index 0
      have hbs : binary_search_by_len (f :: rest) x = Sum.inl 0 ∨
          binary_search_by_len (f :: rest) x = Sum.inr 1 := by
        rcases Nat.lt_or_ge c x with hcx' | hcx'
        · right
          have hne : ¬ f.len = x := by omega
          have hltx : f.len < x := by omega
          rw [binary_search_by_len]
          rw [if_neg hne, if_pos hltx]
          cases rest with
          | nil => rfl
          | cons g rest' =>
            have hg : g.len = c + (f.range.2 - f.range.1) := hrest.1
            have : binary_search_by_len (g :: rest') x = Sum.inr 0 := by
              rw [binary_search_by_len, if_neg (by omega), if_neg (by omega)]
            rw [this]
        · left
          have hcxeq : c = x := by omega
          rw [binary_search_by_len, if_pos (by omega)]
      have hidx : access_in_list R (f :: rest) x =
          if f.len ≤ x then R[f.range.1 + (x - f.len)]? else none := by
        rcases hbs with hbs | hbs <;>
          simp [access_in_list, hbs]
      rw [hidx, if_pos (by omega)]
      have hxc : x - f.len = x - c := by rw [hflen]
      have hlt' : x - c < f.range.2 - f.range.1 := by omega
      have := congrArg (fun l => l[x - c]?) htake
      simp only [List.getElem?_take_of_lt hlt', List.getElem?_drop] at this
      rw [hxc, this]
      congr 1
      omega
    · -- the byte lies in a later factor: reduce to the tail
      cases rest with
      | nil =>
        exfalso
        have : c + (f.range.2 - f.range.1) = S.length := hrest
        omega
      | cons g rest' =>
        have hg : g.len = c + (f.range.2 - f.range.1) := hrest.1
        have hihres := ih (c + (f.range.2 - f.range.1)) hrest x (by omega) hx
        have hxs : S[x]?.isSome := by
          simp [List.getElem?_eq_getElem hx]
        have hflt : f.len < x := by omega
        have hfne : ¬ f.len = x := by omega
        have hbsf : binary_search_by_len (f :: g :: rest') x =
            (match binary_search_by_len (g :: rest') x with
              | Sum.inl j => Sum.inl (j + 1)
              | Sum.inr j => Sum.inr (j + 1)) := by
          rw [binary_search_by_len, if_neg hfne, if_pos hflt]
        have hstep : access_in_list R (f :: g :: rest') x =
            access_in_list R (g :: rest') x := by
          cases hbs : binary_search_by_len (g :: rest') x with
          | inl j =>
            simp only [hbs] at hbsf
            simp [access_in_list, hbsf, hbs]
          | inr j =>
            cases j with
            | zero =>
              exfalso
              have hnone : access_in_list R (g :: rest') x = none := by
                simp [access_in_list, hbs]
              rw [hnone] at hihres
              rw [← hihres] at hxs
              simp at hxs
            | succ j' =>
              simp only [hbs] at hbsf
              simp [access_in_list, hbsf, hbs]
        rw [hstep, hihres]

/-- Claim C1, counterexample to the universally quantified statement: for the
non-empty input list `["a", "b"]` (bytes `[[97], [98]]`) with the default
reference index 0, the reference string is `"aACGTN"`, byte `98` (`'b'`) does
not occur in it, and `encode_parts` panics at the
`expect("Reference string did not contain substring")` (modelled by `none`):
no archive is produced, so `decode(encode(X)) = X` fails for this `X`. -/
theorem C1_counterexample : encode [[97], [98]] none = none := by decide

/-- Claim C1, witness: a concrete archive produced by encoding
`["ban", "aaa"]` decodes back to the inputs, via `C1_encode_decode_roundtrip`. -/
theorem C1_witness :
    internal_decode
        { base_data := [98, 97, 110, 65, 67, 71, 84, 78],
          data := [[{ len := 0, range := (0, 3) }],
                   [{ len := 0, range := (1, 2) }, { len := 1, range := (1, 2) },
                    { len := 2, range := (1, 2) }]] } =
      some [[98, 97, 110], [97, 97, 97]] :=
  C1_encode_decode_roundtrip [[98, 97, 110], [97, 97, 97]] none _ (by decide)

/-- Claim C2: for every input list `X`, sequence index `i` and byte index `x`
with `x < |X[i]|`, random access on an archive produced by (fixed-indices)
encoding returns `X[i][x]`, computed by binary-searching the factor list for
the factor `f` covering `x` and reading `R[f.start + (x - f.cum)]`. -/
theorem C2_random_access (strings : List (List Nat)) (n : Option (List Nat))
    (rlz : RelativeLempelZiv) (i x : Nat) (h : encode strings n = some rlz)
    (hi : i < strings.length) (hx : x < strings[i].length) :
    internal_random_access rlz i x = some strings[i][x] := by
  rw [encode] at h
  cases hbs : base_string strings n with
  | none => simp [hbs] at h
  | some R =>
    simp only [hbs] at h
    rw [encode_parts] at h
    cases hmo : mapOption (fun s => encode_parts_go R s.length s 0) strings with
    | none => rw [hmo] at h; cases h
    | some data =>
      rw [hmo] at h
      simp only [Option.map_some', Option.some.injEq] at h
      subst h
      rw [internal_random_access]
      have hdi := mapOption_getElem? hmo i
      rw [List.getElem?_eq_getElem hi] at hdi
      simp only [Option.some_bind] at hdi
      cases hgo : encode_parts_go R strings[i].length strings[i] 0 with
      | none =>
        exfalso
        rw [hgo] at hdi
        have hlen := mapOption_length hmo
        have : data[i]? = some data[i] := List.getElem?_eq_getElem (by omega)
        rw [hdi] at this
        cases this
      | some es =>
        rw [hgo] at hdi
        simp only [hdi]
        have hinv : seqInv R strings[i] 0 es := by
          apply encode_parts_go_inv strings[i].length 0 es
          · rw [List.drop_zero]
            exact hgo
          · exact Nat.zero_le _
        have hacc := access_in_list_spec 0 es hinv x (Nat.zero_le _) hx
        rw [hacc, List.getElem?_eq_getElem hx]

/-- Claim C2, witness: random access on the archive of `["ban", "aaa"]`
returns byte `'a'` at position 2 of sequence 1, via `C2_random_access`. -/
theorem C2_witness :
    internal_random_access
        { base_data := [98, 97, 110, 65, 67, 71, 84, 78],
          data := [[{ len := 0, range := (0, 3) }],
                   [{ len := 0, range := (1, 2) }, { len := 1, range := (1, 2) },
                    { len := 2, range := (1, 2) }]] } 1 2 = some 97 :=
  C2_random_access [[98, 97, 110], [97, 97, 97]] none _ 1 2 (by decide)
    (by decide) (by decide)

theorem seqInv_adjacent {R S : List Nat} :
    ∀ (c : Nat) (es : EncodedString), seqInv R S c es →
      ∀ (j : Nat) (f g : EncodePart), es[j]? = some f → es[j + 1]? = some g →
        f.len < g.len ∧ g.len - f.len = f.range.2 - f.range.1 := by
  intro c es
  induction es generalizing c with
  | nil =>
    intro _ j f g hf _
    simp at hf
  | cons f0 rest ih =>
    intro h j f g hf hg
    obtain ⟨hflen, hlt, _, _, _, hrest⟩ := h
    cases j with
    | zero =>
      simp only [List.getElem?_cons_zero, Option.some.injEq] at hf
      simp only [List.getElem?_cons_succ] at hg
      cases rest with
      | nil => simp at hg
      | cons g0 rest' =>
        simp only [List.getElem?_cons_zero, Option.some.injEq] at hg
        have hg0 : g0.len = c + (f0.range.2 - f0.range.1) := hrest.1
        rw [← hf, ← hg]
        exact ⟨by omega, by omega⟩
    | succ j' =>
      simp only [List.getElem?_cons_succ] at hf hg
      exact ih (c + (f0.range.2 - f0.range.1)) hrest j' f g hf hg

theorem seqInv_getLast {R S : List Nat} :
    ∀ (c : Nat) (es : EncodedString), seqInv R S c es →
      ∀ f : EncodePart, es.getLast? = some f →
        f.range.2 - f.range.1 = S.length - f.len ∧ f.len + (f.range.2 - f.range.1) = S.length := by
  intro c es
  induction es generalizing c with
  | nil =>
    intro _ f hf
    simp at hf
  | cons f0 rest ih =>
    intro h f hf
    obtain ⟨hflen, hlt, _, hdle, _, hrest⟩ := h
    cases rest with
    | nil =>
      simp only [List.getLast?_singleton, Option.some.injEq] at hf
      have hone : c + (f0.range.2 - f0.range.1) = S.length := hrest
      rw [← hf]
      exact ⟨by omega, by omega⟩
    | cons g0 rest' =>
      rw [List.getLast?_cons_cons] at hf
      exact ih (c + (f0.range.2 - f0.range.1)) hrest f hf

/-- Claim C7: in every encoded sequence of an archive produced by encoding,
the factor `cum` (`len`) values are strictly increasing, and each factor's
length `end - start` equals `cum' - cum` where `cum'` is the next factor's
`cum`, or the decoded sequence length (`|X[i]|`) for the last factor. -/
theorem C7_factor_cums (strings : List (List Nat)) (n : Option (List Nat))
    (rlz : RelativeLempelZiv) (h : encode strings n = some rlz)
    (i : Nat) (hi : i < strings.length) (es : EncodedString)
    (hes : rlz.data[i]? = some es) :
    (∀ (j : Nat) (f g : EncodePart), es[j]? = some f → es[j + 1]? = some g →
      f.len < g.len ∧ g.len - f.len = f.range.2 - f.range.1) ∧
    (∀ f : EncodePart, es.getLast? = some f →
      f.range.2 - f.range.1 = strings[i].length - f.len) := by
  rw [encode] at h
  cases hbs : base_string strings n with
  | none => simp [hbs] at h
  | some R =>
    simp only [hbs] at h
    rw [encode_parts] at h
    cases hmo : mapOption (fun s => encode_parts_go R s.length s 0) strings with
    | none => rw [hmo] at h; cases h
    | some data =>
      rw [hmo] at h
      simp only [Option.map_some', Option.some.injEq] at h
      subst h
      have hdi := mapOption_getElem? hmo i
      rw [List.getElem?_eq_getElem hi] at hdi
      simp only [Option.some_bind] at hdi
      simp only [hes] at hdi
      cases hgo : encode_parts_go R strings[i].length strings[i] 0 with
      | none => rw [hgo] at hdi; cases hdi
      | some es' =>
        rw [hgo] at hdi
        cases hdi
        have hinv : seqInv R strings[i] 0 es := by
          apply encode_parts_go_inv strings[i].length 0 es
          · rw [List.drop_zero]
            exact hgo
          · exact Nat.zero_le _
        exact ⟨seqInv_adjacent 0 es hinv,
          fun f hf => (seqInv_getLast 0 es hinv f hf).1⟩

/-- Claim C7, witness: the adjacent-factor and last-factor properties on the
concrete archive of `["ban", "aaa"]`, via `C7_factor_cums`. -/
theorem C7_witness :
    ((0 : Nat) < 1 ∧ (1 : Nat) - 0 = 2 - 1) ∧ ((2 : Nat) - 1 = 3 - 2) :=
  ⟨(C7_factor_cums [[98, 97, 110], [97, 97, 97]] none
      { base_data := [98, 97, 110, 65, 67, 71, 84, 78],
        data := [[{ len := 0, range := (0, 3) }],
                 [{ len := 0, range := (1, 2) }, { len := 1, range := (1, 2) },
                  { len := 2, range := (1, 2) }]] } (by decide) 1 (by decide)
      [{ len := 0, range := (1, 2) }, { len := 1, range := (1, 2) },
       { len := 2, range := (1, 2) }] (by decide)).1 0
      { len := 0, range := (1, 2) } { len := 1, range := (1, 2) } (by decide) (by decide),
   (C7_factor_cums [[98, 97, 110], [97, 97, 97]] none
      { base_data := [98, 97, 110, 65, 67, 71, 84, 78],
        data := [[{ len := 0, range := (0, 3) }],
                 [{ len := 0, range := (1, 2) }, { len := 1, range := (1, 2) },
                  { len := 2, range := (1, 2) }]] } (by decide) 1 (by decide)
      [{ len := 0, range := (1, 2) }, { len := 1, range := (1, 2) },
       { len := 2, range := (1, 2) }] (by decide)).2
      { len := 2, range := (1, 2) } (by decide)⟩

/-- Claim C10: in every archive produced by encoding, the first factor of
every non-empty encoded sequence has `cum = 0`; consequently the binary
search over `cum` values in `internal_random_access` can only miss with an
insertion index `≥ 1`, so the `index - 1` computation in the miss branch
never underflows for any queried byte position `x ≥ 0`. -/
theorem C10_no_underflow (strings : List (List Nat)) (n : Option (List Nat))
    (rlz : RelativeLempelZiv) (h : encode strings n = some rlz)
    (i : Nat) (es : EncodedString) (hes : rlz.data[i]? = some es) (hne : es ≠ []) :
    (∀ f : EncodePart, es[0]? = some f → f.len = 0) ∧
    (∀ x j : Nat, binary_search_by_len es x = Sum.inr j → 1 ≤ j) := by
  rw [encode] at h
  cases hbs : base_string strings n with
  | none => simp [hbs] at h
  | some R =>
    simp only [hbs] at h
    rw [encode_parts] at h
    cases hmo : mapOption (fun s => encode_parts_go R s.length s 0) strings with
    | none => rw [hmo] at h; cases h
    | some data =>
      rw [hmo] at h
      simp only [Option.map_some', Option.some.injEq] at h
      subst h
      have hdi := mapOption_getElem? hmo i
      simp only [hes] at hdi
      cases hsi : strings[i]? with
      | none => rw [hsi] at hdi; simp at hdi
      | some S =>
        rw [hsi] at hdi
        simp only [Option.some_bind] at hdi
        have hinv : seqInv R S 0 es := by
          apply encode_parts_go_inv S.length 0 es
          · rw [List.drop_zero]
            exact hdi.symm
          · exact Nat.zero_le _
        cases es with
        | nil => exact absurd rfl hne
        | cons f rest =>
          have hf0 : f.len = 0 := hinv.1
          refine ⟨?_, ?_⟩
          · intro f' h0
            simp only [List.getElem?_cons_zero, Option.some.injEq] at h0
            rw [← h0]
            exact hf0
          · intro x j hbsj
            rw [binary_search_by_len] at hbsj
            by_cases hx : f.len = x
            · rw [if_pos hx] at hbsj
              cases hbsj
            · rw [if_neg hx, if_pos (by omega)] at hbsj
              cases hb2 : binary_search_by_len rest x with
              | inl j2 =>
                simp only [hb2] at hbsj
                cases hbsj
              | inr j2 =>
                simp only [hb2] at hbsj
                injection hbsj with hj
                omega

/-- Claim C10, witness: the first factor of sequence 1 of the archive of
`["ban", "aaa"]` has `cum = 0`, and a missing search for `x = 5` yields
insertion index 3 `≥ 1`, via `C10_no_underflow`. -/
theorem C10_witness : (0 : Nat) = 0 ∧ (1 : Nat) ≤ 3 :=
  ⟨(C10_no_underflow [[98, 97, 110], [97, 97, 97]] none
      { base_data := [98, 97, 110, 65, 67, 71, 84, 78],
        data := [[{ len := 0, range := (0, 3) }],
                 [{ len := 0, range := (1, 2) }, { len := 1, range := (1, 2) },
                  { len := 2, range := (1, 2) }]] } (by decide) 1
      [{ len := 0, range := (1, 2) }, { len := 1, range := (1, 2) },
       { len := 2, range := (1, 2) }] (by decide) (by decide)).1
      { len := 0, range := (1, 2) } (by decide),
   (C10_no_underflow [[98, 97, 110], [97, 97, 97]] none
      { base_data := [98, 97, 110, 65, 67, 71, 84, 78],
        data := [[{ len := 0, range := (0, 3) }],
                 [{ len := 0, range := (1, 2) }, { len := 1, range := (1, 2) },
                  { len := 2, range := (1, 2) }]] } (by decide) 1
      [{ len := 0, range := (1, 2) }, { len := 1, range := (1, 2) },
       { len := 2, range := (1, 2) }] (by decide) (by decide)).2 5 3 (by decide)⟩

/-- Claim C3 (settled against the spec-modelled `longest_substring`): for a
non-empty byte slice `x :: t`, the query returns `none` exactly when the
first byte `x` does not occur in `R`; and when it returns `some (s, e)`, the
range is non-empty and in bounds, `R[s..e]` equals the prefix of `x :: t` of
length `e - s`, that prefix occurs in `R`, and no longer prefix of `x :: t`
occurs in `R` — i.e. `R[s..e]` is the longest prefix of the slice occurring
anywhere as a substring of `R`. -/
theorem C3_longest_substring (R : List Nat) (x : Nat) (t : List Nat) :
    (longest_substring R (x :: t) = none ↔ x ∉ R) ∧
    (∀ s e : Nat, longest_substring R (x :: t) = some (s, e) →
      s < e ∧ e ≤ R.length ∧ e - s ≤ (x :: t).length ∧
        (R.drop s).take (e - s) = (x :: t).take (e - s) ∧
        occursIn R ((x :: t).take (e - s)) = true ∧
        ∀ j, j ≤ (x :: t).length → occursIn R ((x :: t).take j) = true → j ≤ e - s) := by
  refine ⟨longest_substring_none_iff, ?_⟩
  intro s e h
  obtain ⟨h1, h2, h3, h4⟩ := longest_substring_some_spec h
  refine ⟨h1, h2, h3, h4, ?_, longest_substring_max h⟩
  rw [occursIn]
  have htl : ((x :: t).take (e - s)).length = e - s := by
    rw [List.length_take]
    exact Nat.min_eq_left h3
  have := findSub_complete (p := (x :: t).take (e - s)) (l := R) (s := s)
    (by rw [htl]; omega) (by rw [htl]; exact h4)
  exact this

/-- Claim C3, witness: on `R = "banana"` and `b = "ban"` the query returns
`(0, 3)` and the instantiated properties hold, via `C3_longest_substring`. -/
theorem C3_witness :
    (0 : Nat) < 3 ∧ (3 : Nat) ≤ ([98, 97, 110, 97, 110, 97] : List Nat).length ∧
      3 - 0 ≤ ([98, 97, 110] : List Nat).length ∧
      (([98, 97, 110, 97, 110, 97] : List Nat).drop 0).take (3 - 0) =
        ([98, 97, 110] : List Nat).take (3 - 0) ∧
      occursIn [98, 97, 110, 97, 110, 97] (([98, 97, 110] : List Nat).take (3 - 0)) = true ∧
      ∀ j, j ≤ ([98, 97, 110] : List Nat).length →
        occursIn [98, 97, 110, 97, 110, 97] (([98, 97, 110] : List Nat).take j) = true →
          j ≤ 3 - 0 :=
  (C3_longest_substring [98, 97, 110, 97, 110, 97] 98 [97, 110]).2 0 3 (by decide)

/-- Spec §8 scenario 1, "Banana basics", checked on the model: the three
longest-substring queries over `"banana"`. -/
theorem scenario_banana :
    longest_substring [98, 97, 110, 97, 110, 97] [98, 97, 110] = some (0, 3) ∧
    longest_substring [98, 97, 110, 97, 110, 97] [97, 110, 97, 110, 97] = some (1, 6) ∧
    longest_substring [98, 97, 110, 97, 110, 97] [120, 113, 114] = none := by decide

/-- Spec §8 scenario 2, "Mississippi overlaps", checked on the model. -/
theorem scenario_mississippi :
    longest_substring [109, 105, 115, 115, 105, 115, 115, 105, 112, 112, 105]
        [105, 115, 115, 105] = some (1, 5) ∧
    longest_substring [109, 105, 115, 115, 105, 115, 115, 105, 112, 112, 105]
        [105, 115, 115, 105, 112] = some (4, 9) := by decide

/-- Claim C4 (code bug): the executed `base_string` never reaches the
generic alphabet-completion scan — it is dead code below `return s;` — and
there is no caller-supplied extra-alphabet option in this revision (`"ACGTN"`
is hardcoded).  For inputs `["a", "b"]` with the default index list the
reference is `"aACGTN"`; byte `98` (`'b'`) occurs in an input but not in the
reference, and factorization fails (the `expect` panic) on input `"b"`
instead of succeeding on every suffix of every input. -/
theorem C4_alphabet_gap :
    base_string [[97], [98]] none = some [97, 65, 67, 71, 84, 78] ∧
    98 ∈ ([[97], [98]] : List (List Nat)).flatten ∧
    98 ∉ ([97, 65, 67, 71, 84, 78] : List Nat) ∧
    encode [[97], [98]] none = none := by decide

theorem cmp_sep_gt_byte (b : Nat) : LabelData.cmp .Sep (.Byte b) = .gt := rfl

theorem cmp_byte_lt_sep (b : Nat) : LabelData.cmp (.Byte b) .Sep = .lt := rfl

theorem cmpTypes_sep_lt_byte (b : Nat) : LabelData.cmpTypes .Sep (.Byte b) = .lt := rfl

/-- Claim C5 (code bug): in the compiled `suffix_tree` crate the sentinel
compares strictly *greater* than every byte (so ordered iteration places the
sentinel-labeled edge last, contradicting both the claim and the comment in
the code itself), while the unused `types/label_data.rs` revision implements
the claimed order.  Evaluated at byte `97`. -/
theorem C5_sentinel_order :
    LabelData.cmp .Sep (.Byte 97) = .gt ∧ LabelData.cmp (.Byte 97) .Sep = .lt ∧
      LabelData.cmpTypes .Sep (.Byte 97) = .lt ∧
      LabelData.cmpTypes (.Byte 97) .Sep = .gt := by decide

/-- Claim C9, counterexample: encoding the empty input list is *not* always
rejected — with a caller-supplied empty index list, `base_string` succeeds
(the reference is just `"ACGTN"`) and encoding returns an archive with no
sequences instead of failing. -/
theorem C9_counterexample :
    encode ([] : List (List Nat)) (some []) =
      some { base_data := [65, 67, 71, 84, 78], data := [] } := by decide

theorem mergeStep_inl_lt {partSize : Nat} {strings : List (List Nat × Nat)}
    {st st' : MergeState} (h : mergeStep partSize strings st = Sum.inl st') :
    st'.bestNumer < st.bestNumer := by
  rw [mergeStep] at h
  cases hep : encode_parts (strings.map fun p => p.1)
      (base_string_by_name strings st.reference_names) with
  | none => simp [hep] at h
  | some rlz =>
    simp only [hep] at h
    split at h
    · split at h
      · rename_i hlt
        cases hws : worst_reference_string (mkAnalyses partSize strings rlz.data) with
        | none => simp [hws] at h
        | some worst =>
          simp only [hws] at h
          cases h
          exact hlt
      · cases h
    · cases h

theorem mergeRun_fuel_sufficient {partSize : Nat} {strings : List (List Nat × Nat)} :
    ∀ (fuel : Nat) (st : MergeState), st.bestNumer < fuel →
      ∃ out, mergeRun partSize strings fuel st = some out := by
  intro fuel
  induction fuel with
  | zero => intro st h; omega
  | succ fuel ih =>
    intro st h
    rw [mergeRun]
    cases hstep : mergeStep partSize strings st with
    | inl st' =>
      have := mergeStep_inl_lt hstep
      exact ih st' (by omega)
    | inr res => exact ⟨(st, res), rfl⟩

theorem mergeRun_exit_step {partSize : Nat} {strings : List (List Nat × Nat)} :
    ∀ (fuel : Nat) (st stF : MergeState) (res : Option RelativeLempelZiv),
      mergeRun partSize strings fuel st = some (stF, res) →
        mergeStep partSize strings stF = Sum.inr res := by
  intro fuel
  induction fuel with
  | zero => intro st stF res h; cases h
  | succ fuel ih =>
    intro st stF res h
    rw [mergeRun] at h
    cases hstep : mergeStep partSize strings st with
    | inl st' =>
      rw [hstep] at h
      exact ih st' stF res h
    | inr r =>
      rw [hstep] at h
      cases h
      exact hstep

theorem mergeStep_inr_some {partSize : Nat} {strings : List (List Nat × Nat)}
    {st : MergeState} {res : Option RelativeLempelZiv}
    (h : mergeStep partSize strings st = Sum.inr res) (hs : res.isSome) :
    res = st.best_rlz := by
  rw [mergeStep] at h
  cases hep : encode_parts (strings.map fun p => p.1)
      (base_string_by_name strings st.reference_names) with
  | none =>
    simp only [hep] at h
    cases h
    simp at hs
  | some rlz =>
    simp only [hep] at h
    split at h
    · split at h
      · cases hws : worst_reference_string (mkAnalyses partSize strings rlz.data) with
        | none =>
          simp only [hws] at h
          cases h
          simp at hs
        | some worst => simp [hws] at h
      · cases h
        rfl
    · cases h
      simp at hs

/-- Claim C8 (amended): for every non-empty input collection the
reference-merge loop terminates — each accepted iteration strictly decreases
the compressed-footprint numerator of the rate (a natural, bounded below by
0), so `total + 1` iterations always suffice from the initial state — and
whenever it returns an archive, that archive is the previous best: the
`best_rlz` recorded by the last improving iteration, carried in the exit
state.  When no iteration improves on the initial rate `1.0` (or a
factorization or sort step panics) it fails without an archive. -/
theorem C8_merge_terminates (partSize seed : Nat)
    (strings : List (List Nat × Nat)) (hne : strings ≠ []) :
    ∃ (initial : List Nat × Nat) (st : MergeState) (res : Option RelativeLempelZiv),
      choose seed strings = some initial ∧
      mergeRun partSize strings
          (internal_memory_string_list (strings.map fun p => p.1) + 1)
          { reference_names := [initial.2],
            bestNumer := internal_memory_string_list (strings.map fun p => p.1),
            best_rlz := none } = some (st, res) ∧
      encode_by_reference_merge partSize seed strings = res ∧
      (res.isSome → res = st.best_rlz) := by
  have hlen : 0 < strings.length := by
    cases strings with
    | nil => exact absurd rfl hne
    | cons a l => simp
  obtain ⟨initial, hch⟩ : ∃ initial, choose seed strings = some initial := by
    rw [choose]
    have hm : seed % strings.length < strings.length := Nat.mod_lt _ hlen
    exact ⟨_, List.getElem?_eq_getElem hm⟩
  obtain ⟨⟨st, res⟩, hrun⟩ :=
    @mergeRun_fuel_sufficient partSize strings
      (internal_memory_string_list (strings.map fun p => p.1) + 1)
      { reference_names := [initial.2],
        bestNumer := internal_memory_string_list (strings.map fun p => p.1),
        best_rlz := none }
      (Nat.lt_succ_self _)
  refine ⟨initial, st, res, hch, hrun, ?_, ?_⟩
  · rw [encode_by_reference_merge]
    simp only [hch, hrun]
  · intro hs
    exact mergeStep_inr_some (mergeRun_exit_step _ _ st res hrun) hs

/-- Claim C8, counterexample to "on termination it returns the previous best
archive": for the non-empty collection `["b"]` (with
`size_of::<EncodePart<U>> = 12` and any seed — here 0) the first iteration's
rate `(6 + 12) / 1` is not below the initial `1.0`, no iteration ever
improves, and the source panics at
`best_rlz.expect("Tried to return without actually finding an RLZ")` instead
of returning an archive. -/
theorem C8_counterexample : encode_by_reference_merge 12 0 [([98], 0)] = none := by decide

/-- Claim C8, witness: the amended statement instantiated at the singleton
collection `[("b", 0)]`, via `C8_merge_terminates`. -/
theorem C8_witness :
    ∃ (initial : List Nat × Nat) (st : MergeState) (res : Option RelativeLempelZiv),
      choose 0 [([98], 0)] = some initial ∧
      mergeRun 12 [([98], 0)]
          (internal_memory_string_list (([([98], 0)] : List (List Nat × Nat)).map fun p => p.1) + 1)
          { reference_names := [initial.2],
            bestNumer := internal_memory_string_list
              (([([98], 0)] : List (List Nat × Nat)).map fun p => p.1),
            best_rlz := none } = some (st, res) ∧
      encode_by_reference_merge 12 0 [([98], 0)] = res ∧
      (res.isSome → res = st.best_rlz) :=
  C8_merge_terminates 12 0 [([98], 0)] (by decide)

/-- A reference-merge run that does improve on the initial rate: three
identical 22-byte inputs `"ab" * 11`; the first iteration improves on `1.0`,
the second does not, and the loop returns the first iteration's archive. -/
theorem scenario_merge_success :
    (encode_by_reference_merge 12 0
        [((List.replicate 11 [97, 98]).flatten, 5),
         ((List.replicate 11 [97, 98]).flatten, 6),
         ((List.replicate 11 [97, 98]).flatten, 7)]).isSome = true := by decide

/-- Claim C9 (amended): encoding an empty input list fails without producing
an archive under fixed indices with the default index list (`strings[0]`
panics) or any non-empty index list, and under reference-merge
(`choose(..).unwrap()` panics on the empty slice).  The caller-supplied
*empty* index list is the exception: see `C9_counterexample`. -/
theorem C9_empty_input (x : Nat) (idxs : List Nat) (partSize seed : Nat) :
    encode ([] : List (List Nat)) none = none ∧
    encode ([] : List (List Nat)) (some (x :: idxs)) = none ∧
    encode_by_reference_merge partSize seed [] = none := by
  refine ⟨by decide, ?_, ?_⟩
  · have hbs : base_string ([] : List (List Nat)) (some (x :: idxs)) = none := by
      rw [base_string]
      simp [mapOption]
    rw [encode]
    simp only [hbs]
  · rw [encode_by_reference_merge]
    simp [choose]

/-- Claim C6 (code bug): construction does not always succeed, and the
built tree does not have `|S| + 1` leaves.  For `S = "aaa"` the second
edge split replaces the split node's existing `a`- and sentinel-children,
orphaning two earlier leaves, and the arena ends with 5 childless nodes
instead of 4; for the spec's own `"banana"` example the count is 8 instead
of 7; and for the spec's `"mississippi"` example construction panics
(an `unwrap` on a missing child / suffix link). -/
theorem C6_suffix_tree_bug :
    built_leaf_count [97, 97, 97] = some 5 ∧
    built_leaf_count [98, 97, 110, 97, 110, 97] = some 8 ∧
    init_suffix_tree [109, 105, 115, 115, 105, 115, 115, 105, 112, 112, 105] =
      BuildRes.panic := by decide

/-- A case where the builder does produce the right leaf count:
`S = "abab"` yields 5 leaves. -/
theorem scenario_abab_leaves : built_leaf_count [97, 98, 97, 98] = some 5 := by decide
